import Mathlib

/-!
Verification of `scripts/rfc2book.py`.

The script walks an RFC directory tree, creates symbolic links for every
entry whose name ends in `.md` into a generated `rfcs` directory inside the
mdBook source tree, and writes an mdBook `SUMMARY.md` outline listing the
files in sorted order, nested by directory depth.

The embedding below models the filesystem tree that `collect` walks as an
inductive tree (`FsNode`), the output area that `main` mutates as an
association list from path strings to filesystem objects (`Store`), and the
two routines `collect` and `main` as pure functions from those models to the
list of symbolic-link calls, the emitted outline lines, and the final store.

Python string primitives that the script relies on (`str.endswith`, slicing,
`sorted` by name, `'    ' * depth`) are modelled on `String.data` (lists of
characters), matching Python's code-point-wise semantics.
-/

/-- A node of the walked filesystem tree: a plain file or a directory with a
list of named children.  Names are the entry names as returned by
`os.scandir` (no slashes). -/
inductive FsNode where
  | file : FsNode
  | dir : List (String × FsNode) → FsNode
deriving Repr

/-- `True` for a directory node, mirroring `os.path.isdir` on a path that
names the node. -/
def FsNode.isDir : FsNode → Bool
  | .dir _ => true
  | .file => false

/-- Python `suffix`-test `s.endswith(post)`, modelled on character data. -/
def strEndsWith (s post : String) : Bool :=
  List.isSuffixOf post.data s.data

/-- Code-point-wise `≤` on character lists: Python's `str` comparison used by
`entries.sort(key=lambda e: e.name)`. -/
def leAux : List Char → List Char → Bool
  | [], _ => true
  | _ :: _, [] => false
  | x :: xs, y :: ys =>
    if x.toNat < y.toNat then true
    else if y.toNat < x.toNat then false
    else leAux xs ys

/-- Code-point-wise strict `<` on character lists. -/
def ltAux : List Char → List Char → Bool
  | [], [] => false
  | [], _ :: _ => true
  | _ :: _, [] => false
  | x :: xs, y :: ys =>
    if x.toNat < y.toNat then true
    else if y.toNat < x.toNat then false
    else ltAux xs ys

/-- Python string `≤` (lexicographic by code point). -/
def strLe (a b : String) : Bool := leAux a.data b.data

/-- Python string `<` (lexicographic by code point). -/
def strLt (a b : String) : Bool := ltAux a.data b.data

/-- Insert a name into an already sorted list of names, keeping order:
one step of the sort performed by `entries.sort(key=lambda e: e.name)`. -/
def insertName (nm : String) : List String → List String
  | [] => [nm]
  | x :: xs => if strLe nm x then nm :: x :: xs else x :: insertName nm xs

/-- Sort a list of names ascending, modelling
`entries.sort(key=lambda e: e.name)`. -/
def sortNames : List String → List String
  | [] => []
  | x :: xs => insertName x (sortNames xs)

/-- The name filter of `collect`:
`[e for e in os.scandir(path) if e.name.endswith('.md')]`, keeping only the
entry names (the script never inspects anything else about an entry). -/
def mdNames (entries : List (String × FsNode)) : List String :=
  (entries.map Prod.fst).filter (fun n => strEndsWith n ".md")

/-- `'    ' * depth`: the indentation of an outline row. -/
def indentOf (depth : Nat) : String := ⟨List.replicate (4 * depth) ' '⟩

/-- The outline row written for one entry:
`f'- {indent}[{name}](rfcs/{link_path})\n'` with `name = entry.name[:-3]`
and `link_path = entry.path[5:]` where `entry.path = path + '/' + name`. -/
def rowString (path : String) (depth : Nat) (nm : String) : String :=
  "- " ++ indentOf depth ++ "[" ++ nm.dropRight 3 ++ "](rfcs/" ++
    (path ++ "/" ++ nm).drop 5 ++ ")\n"

/-- The `(src, dst)` argument pair of the call
`symlink(f'../../../{path}/{entry.name}', f'{srcpath}/rfcs/{entry.name}')`. -/
def linkPair (path srcpath nm : String) : String × String :=
  ("../../../" ++ path ++ "/" ++ nm, srcpath ++ "/rfcs/" ++ nm)

/-- The loop body of `collect`, iterating over the sorted markdown entry
names of the directory whose full entry list is `entries`.  Returns the
ordered list of `symlink` calls and the ordered list of outline rows the
iteration emits (each row is both printed and written to the summary file).
A recursive call happens exactly when the current name is not `README.md`
and a sibling entry named like the file without its extension is a
directory (`os.path.isdir(os.path.join(path, name))`). -/
def collectList (entries : List (String × FsNode)) (names : List String)
    (path srcpath : String) (depth : Nat) :
    List (String × String) × List String :=
  match names with
  | [] => ([], [])
  | nm :: rest =>
    let link := linkPair path srcpath nm
    let stem := nm.dropRight 3
    if stem = "README" then
      let restOut := collectList entries rest path srcpath depth
      (link :: restOut.1, restOut.2)
    else
      let line := rowString path depth nm
      let subOut :=
        match List.find? (fun e => e.1.1 = stem) entries.attach with
        | some ⟨(_, FsNode.dir subEntries), _⟩ =>
          collectList subEntries (sortNames (mdNames subEntries))
            (path ++ "/" ++ stem) srcpath (depth + 1)
        | some ⟨(_, FsNode.file), _⟩ => ([], [])
        | none => ([], [])
      let restOut := collectList entries rest path srcpath depth
      (link :: (subOut.1 ++ restOut.1), line :: (subOut.2 ++ restOut.2))
termination_by (sizeOf entries, names.length)
decreasing_by
  all_goals
    first
      | (apply Prod.Lex.right
         simp)
      | (apply Prod.Lex.left
         rename_i hmem
         have hm := List.sizeOf_lt_of_mem hmem
         simp at hm ⊢
         omega)

/-- `collect(summary, path, srcpath, depth)` on the directory tree rooted at
`node` (the node the string `path` names).  Returns the ordered `symlink`
calls and the ordered outline rows. -/
def collect (node : FsNode) (path srcpath : String) (depth : Nat) :
    List (String × String) × List String :=
  match node with
  | .file => ([], [])
  | .dir entries => collectList entries (sortNames (mdNames entries)) path srcpath depth

/-- Fuel-indexed computational twin of `collectList`, identical step for
step; used to evaluate the well-founded `collectList` on concrete input. -/
def collectListF : Nat → List (String × FsNode) → List String → String → String → Nat →
    List (String × String) × List String
  | 0, _, _, _, _, _ => ([], [])
  | fuel + 1, entries, names, path, srcpath, depth =>
    match names with
    | [] => ([], [])
    | nm :: rest =>
      let link := linkPair path srcpath nm
      let stem := nm.dropRight 3
      if stem = "README" then
        let restOut := collectListF fuel entries rest path srcpath depth
        (link :: restOut.1, restOut.2)
      else
        let line := rowString path depth nm
        let subOut :=
          match List.find? (fun e => e.1.1 = stem) entries.attach with
          | some ⟨(_, FsNode.dir subEntries), _⟩ =>
            collectListF fuel subEntries (sortNames (mdNames subEntries))
              (path ++ "/" ++ stem) srcpath (depth + 1)
          | some ⟨(_, FsNode.file), _⟩ => ([], [])
          | none => ([], [])
        let restOut := collectListF fuel entries rest path srcpath depth
        (link :: (subOut.1 ++ restOut.1), line :: (subOut.2 ++ restOut.2))

mutual
/-- Computable size of a tree, used as fuel for the computational twin. -/
def FsNode.csize : FsNode → Nat
  | .file => 1
  | .dir es => 1 + csizeEntries es
/-- Computable size of an entry list. -/
def csizeEntries : List (String × FsNode) → Nat
  | [] => 1
  | e :: es => 1 + e.2.csize + csizeEntries es
end

/-- Computable form of `collect`. -/
def collectF (node : FsNode) (path srcpath : String) (depth : Nat) :
    List (String × String) × List String :=
  match node with
  | .file => ([], [])
  | .dir es =>
    collectListF (csizeEntries es * csizeEntries es + (sortNames (mdNames es)).length)
      es (sortNames (mdNames es)) path srcpath depth

/-- An object in the output area of the filesystem: a directory, a symbolic
link with its target string, or a regular file with its contents. -/
inductive FsObj where
  | dirObj : FsObj
  | linkObj : String → FsObj
  | fileObj : String → FsObj
deriving Repr, DecidableEq

/-- The output area of the filesystem, as a map from path strings to
objects; the first binding of a path shadows older ones. -/
abbrev Store := List (String × FsObj)

/-- Look up the object at a path. -/
def storeLookup (st : Store) (p : String) : Option FsObj :=
  (List.find? (fun e => e.1 = p) st).map Prod.snd

/-- `os.path.exists(p)` on the output area. -/
def storeHas (st : Store) (p : String) : Bool :=
  (storeLookup st p).isSome

/-- `True` when path `b` lies strictly inside the directory named by the
slash-terminated string `a` (`a` is a leading run of `b`'s characters). -/
def pathUnder (a b : String) : Bool :=
  List.isPrefixOf a.data b.data

/-- `shutil.rmtree(p)`: remove the object at `p` and every object below it. -/
def rmtree (st : Store) (p : String) : Store :=
  List.filter (fun e => !(e.1 = p || pathUnder (p ++ "/") e.1)) st

/-- `os.mkdir(p)`. -/
def mkdir (st : Store) (p : String) : Store :=
  (p, FsObj.dirObj) :: st

/-- `open(p, 'w')` followed by writing `c`: the new binding shadows any old
object at `p`. -/
def writeFile (st : Store) (p c : String) : Store :=
  (p, FsObj.fileObj c) :: st

/-- `symlink(src, dst)` from the script:
`if not os.path.exists(dst): os.symlink(src, dst)`. -/
def symlink (st : Store) (src dst : String) : Store :=
  if storeHas st dst then st else (dst, FsObj.linkObj src) :: st

/-- Perform the recorded `symlink` calls in order. -/
def applyLinks (st : Store) (links : List (String × String)) : Store :=
  links.foldl (fun s l => symlink s l.1 l.2) st

/-- The usage error message raised by `main` for an unrecognized working
directory. -/
def usageMsg : String :=
  "rfc2book must be run either in the repo root (mnemos/) or in the mdbook (mnemos/book/) directory"

/-- The working-directory dispatch of `main`: returns
`(src_path, rfc_path)` or the usage error. -/
def resolvePaths (cwd : String) : Except String (String × String) :=
  if strEndsWith cwd "book" then Except.ok ("src", "../rfcs")
  else if strEndsWith cwd "mnemos" then Except.ok ("book/src", "rfcs")
  else Except.error usageMsg

/-- The output-reset phase of `main`:
`if os.path.exists(book_rfcs): shutil.rmtree(book_rfcs)` then
`os.mkdir(book_rfcs)`. -/
def resetPhase (st : Store) (bookRfcs : String) : Store :=
  mkdir (if storeHas st bookRfcs then rmtree st bookRfcs else st) bookRfcs

/-- The fixed section header `index_item` written after the copied index. -/
def rfcsHeader : String := "\n# RFCs\n\n- [Introduction](rfcs/README.md)\n"

/-- The observable outcome of one run of `main`: the final output area, the
text printed to standard output, and the contents written to `SUMMARY.md`. -/
structure RunOut where
  store : Store
  stdout : String
  summary : String
deriving Repr, DecidableEq

/-- One run of `main`, reading the RFC tree `tree` (the node that
`rfc_path` names) and mutating the output area `st`.  An `Except.error`
result models an uncaught exception: the run aborts and produces no
`RunOut`. -/
def runMain (cwd : String) (tree : FsNode) (st : Store) : Except String RunOut :=
  match resolvePaths cwd with
  | Except.error e => Except.error e
  | Except.ok (src_path, rfc_path) =>
    let book_rfcs := src_path ++ "/rfcs"
    let st2 := resetPhase st book_rfcs
    match storeLookup st2 (src_path ++ "/index.md") with
    | some (FsObj.fileObj summary) =>
      let out := collect tree rfc_path src_path 0
      let full := summary ++ "\n" ++ rfcsHeader ++ String.join out.2
      let st3 := writeFile st2 (src_path ++ "/SUMMARY.md") full
      let st4 := applyLinks st3 out.1
      Except.ok { store := st4, stdout := rfcsHeader ++ String.join out.2 ++ "\n", summary := full }
    | _ => Except.error "rfc2book could not read index.md"

/-- The nesting depth of an outline row, read back from its text: the
number of 4-space indentation units between the `- ` bullet and the `[`. -/
def lineDepth (l : String) : Nat :=
  ((l.data.drop 2).takeWhile (fun c => c = ' ')).length / 4

mutual
/-- The real directory nesting depth of a tree. -/
def FsNode.height : FsNode → Nat
  | .file => 0
  | .dir es => 1 + heightEntries es
/-- The largest nesting depth among a list of directory entries. -/
def heightEntries : List (String × FsNode) → Nat
  | [] => 0
  | e :: es => max e.2.height (heightEntries es)
end

/-- Split a path string into its `/`-separated components. -/
def splitSlashAux (acc : List Char) : List Char → List String
  | [] => [⟨acc.reverse⟩]
  | c :: cs => if c = '/' then ⟨acc.reverse⟩ :: splitSlashAux [] cs
               else splitSlashAux (c :: acc) cs

/-- Split a path string into its `/`-separated components. -/
def splitSlash (s : String) : List String := splitSlashAux [] s.data

/-- Resolve the relative path `comps` from the directory whose absolute
component list is `base`: `..` pops one component, anything else descends. -/
def resolveRel (base : List String) : List String → List String
  | [] => base
  | c :: cs => if c = ".." then resolveRel base.dropLast cs
               else resolveRel (base ++ [c]) cs

/-- Concrete RFC tree from the script docstring: a chapter file and its
same-named subdirectory with an extra page. -/
def fooTree : FsNode :=
  FsNode.dir [("0001-foo.md", FsNode.file), ("0001-foo", FsNode.dir [("bar.md", FsNode.file)])]

/-- Concrete RFC tree with a `README.md` and a sibling directory named
`README` containing a markdown file. -/
def readmeTree : FsNode :=
  FsNode.dir [("README.md", FsNode.file), ("README", FsNode.dir [("inner.md", FsNode.file)])]

/-- Concrete entry list whose only markdown-named entry is a directory. -/
def dirMdEntries : List (String × FsNode) :=
  [("X.md", FsNode.dir [("inner.md", FsNode.file)])]

/-- Concrete initial output area for the rerun example: just the index
fragment. -/
def rerunStore : Store := [("book/src/index.md", FsObj.fileObj "IDX")]

/-- The run result of `main` in the `mnemos` layout on `fooTree` starting
from `rerunStore`. -/
def rerunOut : RunOut where
  store := [("book/src/rfcs/bar.md", FsObj.linkObj "../../../rfcs/0001-foo/bar.md"),
    ("book/src/rfcs/0001-foo.md", FsObj.linkObj "../../../rfcs/0001-foo.md"),
    ("book/src/SUMMARY.md", FsObj.fileObj
      "IDX\n\n# RFCs\n\n- [Introduction](rfcs/README.md)\n- [0001-foo](rfcs/0001-foo.md)\n-     [bar](rfcs/0001-foo/bar.md)\n"),
    ("book/src/rfcs", FsObj.dirObj),
    ("book/src/index.md", FsObj.fileObj "IDX")]
  stdout := "\n# RFCs\n\n- [Introduction](rfcs/README.md)\n- [0001-foo](rfcs/0001-foo.md)\n-     [bar](rfcs/0001-foo/bar.md)\n\n"
  summary := "IDX\n\n# RFCs\n\n- [Introduction](rfcs/README.md)\n- [0001-foo](rfcs/0001-foo.md)\n-     [bar](rfcs/0001-foo/bar.md)\n"

lemma csize_pos (n : FsNode) : 1 ≤ n.csize := by
  cases n <;> simp [FsNode.csize, csizeEntries]

lemma csizeEntries_pos (es : List (String × FsNode)) : 1 ≤ csizeEntries es := by
  cases es with
  | nil => simp [csizeEntries]
  | cons e es => simp [csizeEntries]; omega

lemma length_le_csize (es : List (String × FsNode)) : es.length ≤ csizeEntries es := by
  induction es with
  | nil => simp [csizeEntries]
  | cons e es ih =>
    have := csize_pos e.2
    simp [csizeEntries]
    omega

lemma mem_csize {a : String} {c : FsNode} {es : List (String × FsNode)}
    (h : (a, c) ∈ es) : c.csize + 1 ≤ csizeEntries es := by
  induction es with
  | nil => cases h
  | cons e es ih =>
    rcases List.mem_cons.mp h with h | h
    · subst h
      have := csizeEntries_pos es
      simp [csizeEntries]
      omega
    · have := ih h
      have := csize_pos e.2
      simp [csizeEntries]
      omega

lemma length_insertName (nm : String) (l : List String) :
    (insertName nm l).length = l.length + 1 := by
  induction l with
  | nil => simp [insertName]
  | cons x xs ih =>
    simp only [insertName]
    split <;> simp [ih]

lemma length_sortNames (l : List String) : (sortNames l).length = l.length := by
  induction l with
  | nil => rfl
  | cons x xs ih => simp [sortNames, length_insertName, ih]

lemma length_mdNames (entries : List (String × FsNode)) :
    (mdNames entries).length ≤ entries.length := by
  unfold mdNames
  calc (List.filter (fun n => strEndsWith n ".md") (entries.map Prod.fst)).length
      ≤ (entries.map Prod.fst).length := List.length_filter_le _ _
    _ = entries.length := List.length_map _ _

/-- With enough fuel, the twin computes exactly `collectList`. -/
theorem collectListF_eq (entries : List (String × FsNode)) (names : List String)
    (path srcpath : String) (depth : Nat) :
    ∀ fuel, csizeEntries entries * csizeEntries entries + names.length ≤ fuel →
      collectListF fuel entries names path srcpath depth
        = collectList entries names path srcpath depth := by
  induction entries, names, path, srcpath, depth using collectList.induct with
  | case1 entries path srcpath depth =>
    intro fuel hf
    cases fuel with
    | zero =>
      have h1 : 1 ≤ csizeEntries entries := csizeEntries_pos entries
      have h2 : 1 * 1 ≤ csizeEntries entries * csizeEntries entries := Nat.mul_le_mul h1 h1
      omega
    | succ fuel => simp only [collectListF, collectList]
  | case2 entries path srcpath depth nm rest stem hstem ih =>
    intro fuel hf
    simp only [List.length_cons] at hf
    cases fuel with
    | zero => omega
    | succ fuel =>
      simp only [collectListF, collectList]
      rw [if_pos hstem, if_pos hstem, ih fuel (by omega)]
  | case3 entries path srcpath depth nm rest stem hstem ihsub ih =>
    intro fuel hf
    simp only [List.length_cons] at hf
    cases fuel with
    | zero => omega
    | succ fuel =>
      simp only [collectListF, collectList]
      rw [if_neg hstem, if_neg hstem, ih fuel (by omega)]
      rcases hfind : List.find? (fun e => decide (e.1.1 = stem)) entries.attach with _ | ⟨⟨a, child⟩, hmem⟩
      · simp only [hfind]
      · cases child with
        | file => simp only [hfind]
        | dir subEntries =>
          simp only [hfind]
          have hm := mem_csize hmem
          simp only [FsNode.csize] at hm
          have hlen : (sortNames (mdNames subEntries)).length ≤ csizeEntries subEntries := by
            calc (sortNames (mdNames subEntries)).length
                = (mdNames subEntries).length := length_sortNames _
              _ ≤ subEntries.length := length_mdNames _
              _ ≤ csizeEntries subEntries := length_le_csize _
          rw [ihsub a subEntries hmem fuel (by nlinarith)]

/-- `collect` can be evaluated through its computable form. -/
theorem collect_eval (node : FsNode) (path srcpath : String) (depth : Nat) :
    collect node path srcpath depth = collectF node path srcpath depth := by
  cases node with
  | file => rfl
  | dir es => exact (collectListF_eq es _ path srcpath depth _ (le_refl _)).symm

lemma insertName_perm (nm : String) (l : List String) :
    List.Perm (insertName nm l) (nm :: l) := by
  induction l with
  | nil => exact List.Perm.refl _
  | cons x xs ih =>
    simp only [insertName]
    split
    · exact List.Perm.refl _
    · exact (List.Perm.cons x ih).trans (List.Perm.swap nm x xs)

lemma sortNames_perm (l : List String) : List.Perm (sortNames l) l := by
  induction l with
  | nil => exact List.Perm.refl _
  | cons x xs ih => exact (insertName_perm x (sortNames xs)).trans (List.Perm.cons x ih)

lemma mem_sortNames {a : String} {l : List String} : a ∈ sortNames l ↔ a ∈ l :=
  (sortNames_perm l).mem_iff

lemma leAux_total (a : List Char) : ∀ b, leAux a b = true ∨ leAux b a = true := by
  induction a with
  | nil => intro b; left; rfl
  | cons x xs ih =>
    intro b
    cases b with
    | nil => right; rfl
    | cons y ys =>
      simp only [leAux]
      rcases Nat.lt_trichotomy x.toNat y.toNat with h | h | h
      · left; simp [h]
      · rcases ih ys with h2 | h2
        · left; simp [h, h2]
        · right; simp [h.symm, h2]
      · right; simp [h]

lemma leAux_trans {a b c : List Char} (hab : leAux a b = true) (hbc : leAux b c = true) :
    leAux a c = true := by
  induction a generalizing b c with
  | nil => rfl
  | cons x xs ih =>
    cases b with
    | nil => simp [leAux] at hab
    | cons y ys =>
      cases c with
      | nil => simp [leAux] at hbc
      | cons z zs =>
        simp only [leAux] at hab hbc ⊢
        rcases Nat.lt_trichotomy x.toNat y.toNat with h1 | h1 | h1
        · rcases Nat.lt_trichotomy y.toNat z.toNat with h2 | h2 | h2
          · simp [show x.toNat < z.toNat by omega]
          · simp [show x.toNat < z.toNat by omega]
          · simp [show ¬ y.toNat < z.toNat by omega, show z.toNat < y.toNat by omega] at hbc
        · rcases Nat.lt_trichotomy y.toNat z.toNat with h2 | h2 | h2
          · simp [show x.toNat < z.toNat by omega]
          · simp only [show ¬ x.toNat < y.toNat by omega, show ¬ y.toNat < x.toNat by omega,
              if_false] at hab
            simp only [show ¬ y.toNat < z.toNat by omega, show ¬ z.toNat < y.toNat by omega,
              if_false] at hbc
            simp only [show ¬ x.toNat < z.toNat by omega, show ¬ z.toNat < x.toNat by omega,
              if_false]
            exact ih hab hbc
          · simp [show ¬ y.toNat < z.toNat by omega, show z.toNat < y.toNat by omega] at hbc
        · simp [show ¬ x.toNat < y.toNat by omega, show y.toNat < x.toNat by omega] at hab

lemma leAux_ne_lt {a b : List Char} (hle : leAux a b = true) (hne : a ≠ b) :
    ltAux a b = true := by
  induction a generalizing b with
  | nil =>
    cases b with
    | nil => exact absurd rfl hne
    | cons y ys => rfl
  | cons x xs ih =>
    cases b with
    | nil => simp [leAux] at hle
    | cons y ys =>
      simp only [leAux] at hle
      simp only [ltAux]
      rcases Nat.lt_trichotomy x.toNat y.toNat with h1 | h1 | h1
      · simp [h1]
      · have hxy : x = y := Char.ext (UInt32.ext h1)
        subst hxy
        have hne2 : xs ≠ ys := fun h => hne (by rw [h])
        simp only [Nat.lt_irrefl, if_false] at hle ⊢
        exact ih hle hne2
      · simp_all

lemma strLe_total (a b : String) : strLe a b = true ∨ strLe b a = true :=
  leAux_total a.data b.data

lemma strLe_trans {a b c : String} (hab : strLe a b = true) (hbc : strLe b c = true) :
    strLe a c = true :=
  leAux_trans hab hbc


lemma takeWhile_spaces (n : Nat) (t : List Char) :
    List.takeWhile (fun c => c = ' ') (List.replicate n ' ' ++ '[' :: t)
      = List.replicate n ' ' := by
  induction n with
  | zero => simp [List.takeWhile]
  | succ n ih => simp only [List.replicate, List.cons_append, List.takeWhile_cons, decide_True,
      if_true, ih]

lemma lineDepth_rowString (path : String) (depth : Nat) (nm : String) :
    lineDepth (rowString path depth nm) = depth := by
  have hbul : ("- " : String).data = ['-', ' '] := rfl
  have hbra : ("[" : String).data = ['['] := rfl
  have hind : (indentOf depth).data = List.replicate (4 * depth) ' ' := rfl
  unfold rowString lineDepth
  simp only [String.data_append, hbul, hbra, hind, List.append_assoc, List.cons_append,
    List.nil_append, List.drop_succ_cons, List.drop_zero]
  rw [takeWhile_spaces]
  simp only [List.length_replicate]
  omega

lemma mem_height {a : String} {c : FsNode} {es : List (String × FsNode)}
    (h : (a, c) ∈ es) : c.height ≤ heightEntries es := by
  induction es with
  | nil => cases h
  | cons e es ih =>
    rcases List.mem_cons.mp h with h | h
    · subst h
      simp [heightEntries]
    · exact le_trans (ih h) (by simp [heightEntries])

lemma collectList_lines_depth (entries : List (String × FsNode)) (names : List String)
    (path srcpath : String) (depth : Nat) :
    ∀ l ∈ (collectList entries names path srcpath depth).2,
      depth ≤ lineDepth l ∧ lineDepth l ≤ depth + heightEntries entries := by
  induction entries, names, path, srcpath, depth using collectList.induct with
  | case1 entries path srcpath depth => simp [collectList]
  | case2 entries path srcpath depth nm rest stem hstem ih =>
    simp only [collectList, if_pos hstem]
    exact ih
  | case3 entries path srcpath depth nm rest stem hstem ihsub ih =>
    simp only [collectList, if_neg hstem]
    intro l hl
    rcases List.mem_cons.mp hl with rfl | hl
    · rw [lineDepth_rowString]
      omega
    · rcases List.mem_append.mp hl with hl | hl
      · rcases hfind : List.find? (fun e => decide (e.1.1 = stem)) entries.attach
            with _ | ⟨⟨a, child⟩, hmem⟩
        · rw [hfind] at hl
          simp at hl
        · cases child with
          | file =>
            rw [hfind] at hl
            simp at hl
          | dir subEntries =>
            rw [hfind] at hl
            obtain ⟨h1, h2⟩ := ihsub a subEntries hmem l hl
            have hh : FsNode.height (FsNode.dir subEntries) ≤ heightEntries entries :=
              mem_height hmem
            simp only [FsNode.height] at hh
            exact ⟨by omega, by omega⟩
      · exact ih l hl

lemma filter_lines_sub_nil {out : List (String × String) × List String}
    (depth : Nat)
    (h : ∀ l ∈ out.2, depth + 1 ≤ lineDepth l) :
    out.2.filter (fun l => lineDepth l == depth) = [] := by
  rw [List.filter_eq_nil_iff]
  intro l hl
  have := h l hl
  simp only [beq_iff_eq]
  omega

lemma collectList_lines_filter (entries : List (String × FsNode)) (names : List String)
    (path srcpath : String) (depth : Nat) :
    (collectList entries names path srcpath depth).2.filter (fun l => lineDepth l == depth)
      = (names.filter (fun nm => !(nm.dropRight 3 == "README"))).map (rowString path depth) := by
  induction entries, names, path, srcpath, depth using collectList.induct with
  | case1 entries path srcpath depth => simp [collectList]
  | case2 entries path srcpath depth nm rest stem hstem ih =>
    have hb : (!(nm.dropRight 3 == "README")) = false := by
      simp only [Bool.not_eq_false', beq_iff_eq]
      exact hstem
    simp only [collectList, if_pos hstem, List.filter_cons, hb, if_false]
    exact ih
  | case3 entries path srcpath depth nm rest stem hstem ihsub ih =>
    have hb : (!(nm.dropRight 3 == "README")) = true := by
      simp only [Bool.not_eq_true', beq_eq_false_iff_ne, ne_eq]
      exact hstem
    have hrow : (lineDepth (rowString path depth nm) == depth) = true := by
      simp [lineDepth_rowString]
    rcases hfind : List.find? (fun e => decide (e.1.1 = stem)) entries.attach
        with _ | ⟨⟨a, child⟩, hmem⟩
    · simp only [collectList, if_neg hstem, hfind, List.nil_append, List.filter_cons, hrow,
        if_true, hb, List.map_cons, List.filter_append]
      rw [ih]
    · cases child with
      | file =>
        simp only [collectList, if_neg hstem, hfind, List.nil_append, List.filter_cons, hrow,
          if_true, hb, List.map_cons, List.filter_append]
        rw [ih]
      | dir subEntries =>
        have hsub := filter_lines_sub_nil depth
          (fun l hl => (collectList_lines_depth subEntries (sortNames (mdNames subEntries))
            (path ++ "/" ++ stem) srcpath (depth + 1) l hl).1)
        simp only [collectList, if_neg hstem, hfind, List.filter_cons, hrow,
          if_true, hb, List.map_cons, List.filter_append]
        rw [hsub, ih]
        simp

lemma link_mem_collectList (entries : List (String × FsNode)) (names : List String)
    (path srcpath : String) (depth : Nat) :
    ∀ nm ∈ names, linkPair path srcpath nm ∈ (collectList entries names path srcpath depth).1 := by
  induction entries, names, path, srcpath, depth using collectList.induct with
  | case1 entries path srcpath depth => simp
  | case2 entries path srcpath depth nm rest stem hstem ih =>
    intro x hx
    simp only [collectList, if_pos hstem]
    rcases List.mem_cons.mp hx with rfl | hx
    · exact List.mem_cons_self _ _
    · exact List.mem_cons_of_mem _ (ih x hx)
  | case3 entries path srcpath depth nm rest stem hstem ihsub ih =>
    intro x hx
    simp only [collectList, if_neg hstem]
    rcases List.mem_cons.mp hx with rfl | hx
    · exact List.mem_cons_self _ _
    · exact List.mem_cons_of_mem _ (List.mem_append_right _ (ih x hx))

lemma row_mem_collectList (entries : List (String × FsNode)) (names : List String)
    (path srcpath : String) (depth : Nat) :
    ∀ nm ∈ names, nm.dropRight 3 ≠ "README" →
      rowString path depth nm ∈ (collectList entries names path srcpath depth).2 := by
  induction entries, names, path, srcpath, depth using collectList.induct with
  | case1 entries path srcpath depth => simp
  | case2 entries path srcpath depth nm rest stem hstem ih =>
    intro x hx hxr
    simp only [collectList, if_pos hstem]
    rcases List.mem_cons.mp hx with rfl | hx
    · exact absurd hstem hxr
    · exact ih x hx hxr
  | case3 entries path srcpath depth nm rest stem hstem ihsub ih =>
    intro x hx hxr
    simp only [collectList, if_neg hstem]
    rcases List.mem_cons.mp hx with rfl | hx
    · exact List.mem_cons_self _ _
    · exact List.mem_cons_of_mem _ (List.mem_append_right _ (ih x hx hxr))

lemma collectList_links_shape (entries : List (String × FsNode)) (names : List String)
    (path srcpath : String) (depth : Nat) :
    ∀ l ∈ (collectList entries names path srcpath depth).1,
      ∃ nm, l.2 = srcpath ++ "/rfcs/" ++ nm := by
  induction entries, names, path, srcpath, depth using collectList.induct with
  | case1 entries path srcpath depth => simp [collectList]
  | case2 entries path srcpath depth nm rest stem hstem ih =>
    simp only [collectList, if_pos hstem]
    intro l hl
    rcases List.mem_cons.mp hl with rfl | hl
    · exact ⟨nm, rfl⟩
    · exact ih l hl
  | case3 entries path srcpath depth nm rest stem hstem ihsub ih =>
    simp only [collectList, if_neg hstem]
    intro l hl
    rcases List.mem_cons.mp hl with rfl | hl
    · exact ⟨nm, rfl⟩
    · rcases List.mem_append.mp hl with hl | hl
      · rcases hfind : List.find? (fun e => decide (e.1.1 = stem)) entries.attach
            with _ | ⟨⟨a, child⟩, hmem⟩
        · rw [hfind] at hl
          simp at hl
        · cases child with
          | file =>
            rw [hfind] at hl
            simp at hl
          | dir subEntries =>
            rw [hfind] at hl
            exact ihsub a subEntries hmem l hl
      · exact ih l hl

lemma sorted_insertName (nm : String) (l : List String)
    (h : List.Pairwise (fun a b => strLe a b = true) l) :
    List.Pairwise (fun a b => strLe a b = true) (insertName nm l) := by
  induction l with
  | nil => simp [insertName]
  | cons x xs ih =>
    obtain ⟨hx, hxs⟩ := List.pairwise_cons.mp h
    simp only [insertName]
    split
    · next hle =>
      refine List.pairwise_cons.mpr ⟨?_, h⟩
      intro b hb
      rcases List.mem_cons.mp hb with rfl | hb
      · exact hle
      · exact strLe_trans hle (hx b hb)
    · next hle =>
      have hxnm : strLe x nm = true := by
        rcases strLe_total nm x with h1 | h1
        · exact absurd h1 hle
        · exact h1
      refine List.pairwise_cons.mpr ⟨?_, ih hxs⟩
      intro b hb
      rcases List.mem_cons.mp ((insertName_perm nm xs).mem_iff.mp hb) with rfl | hb
      · exact hxnm
      · exact hx b hb

lemma sorted_sortNames (l : List String) :
    List.Pairwise (fun a b => strLe a b = true) (sortNames l) := by
  induction l with
  | nil => simp [sortNames]
  | cons x xs ih => exact sorted_insertName x (sortNames xs) ih

lemma pairwise_lt_sortNames (l : List String) (h : l.Nodup) :
    List.Pairwise (fun a b => strLt a b = true) (sortNames l) := by
  have hs := sorted_sortNames l
  have hn : (sortNames l).Nodup := (sortNames_perm l).nodup_iff.mpr h
  exact List.Pairwise.imp₂
    (fun a b hle hne => leAux_ne_lt hle (fun hd => hne (String.ext hd))) hs hn

lemma nodup_mdNames {entries : List (String × FsNode)}
    (h : (entries.map Prod.fst).Nodup) : (mdNames entries).Nodup :=
  h.filter _

lemma storeLookup_nil (q : String) : storeLookup [] q = none := rfl

lemma storeLookup_cons_self {e : String × FsObj} {st : Store} (h : e.1 = q) :
    storeLookup (e :: st) q = some e.2 := by
  unfold storeLookup
  rw [List.find?_cons_of_pos _ (by simp [h])]
  rfl

lemma storeLookup_cons_ne {e : String × FsObj} {st : Store} (h : e.1 ≠ q) :
    storeLookup (e :: st) q = storeLookup st q := by
  unfold storeLookup
  rw [List.find?_cons_of_neg _ (by simp [h])]

lemma storeLookup_mkdir_self (st : Store) (p : String) :
    storeLookup (mkdir st p) p = some FsObj.dirObj :=
  storeLookup_cons_self rfl

lemma storeLookup_mkdir_ne (st : Store) (p q : String) (h : p ≠ q) :
    storeLookup (mkdir st p) q = storeLookup st q :=
  storeLookup_cons_ne h

lemma storeLookup_writeFile_ne (st : Store) (p c q : String) (h : p ≠ q) :
    storeLookup (writeFile st p c) q = storeLookup st q :=
  storeLookup_cons_ne h

lemma storeLookup_rmtree_removed (st : Store) (p q : String)
    (h : q = p ∨ pathUnder (p ++ "/") q = true) :
    storeLookup (rmtree st p) q = none := by
  induction st with
  | nil => rfl
  | cons e es ih =>
    unfold rmtree
    simp only [List.filter_cons]
    split
    · next hkeep =>
      simp only [Bool.not_eq_true', Bool.or_eq_false_iff, decide_eq_false_iff_not] at hkeep
      have he : e.1 ≠ q := by
        rintro rfl
        rcases h with h | h
        · exact hkeep.1 h
        · rw [hkeep.2] at h
          cases h
      rw [storeLookup_cons_ne he]
      exact ih
    · exact ih

lemma storeLookup_rmtree_other (st : Store) (p q : String)
    (h1 : q ≠ p) (h2 : pathUnder (p ++ "/") q = false) :
    storeLookup (rmtree st p) q = storeLookup st q := by
  induction st with
  | nil => rfl
  | cons e es ih =>
    unfold rmtree
    simp only [List.filter_cons]
    by_cases he : e.1 = q
    · have hkeep : (!(decide (e.1 = p) || pathUnder (p ++ "/") e.1)) = true := by
        subst he
        simp only [Bool.not_eq_true', Bool.or_eq_false_iff, decide_eq_false_iff_not]
        exact ⟨h1, h2⟩
      rw [if_pos hkeep, storeLookup_cons_self he, storeLookup_cons_self he]
    · split
      · rw [storeLookup_cons_ne he, storeLookup_cons_ne he]
        exact ih
      · rw [storeLookup_cons_ne he]
        exact ih

lemma storeLookup_symlink_ne (st : Store) (src dst q : String) (h : dst ≠ q) :
    storeLookup (symlink st src dst) q = storeLookup st q := by
  unfold symlink
  split
  · rfl
  · exact storeLookup_cons_ne h

lemma storeLookup_applyLinks_ne (links : List (String × String)) (st : Store) (q : String)
    (h : ∀ l ∈ links, l.2 ≠ q) :
    storeLookup (applyLinks st links) q = storeLookup st q := by
  induction links generalizing st with
  | nil => rfl
  | cons l ls ih =>
    unfold applyLinks
    simp only [List.foldl_cons]
    rw [show List.foldl (fun s l => symlink s l.1 l.2) (symlink st l.1 l.2) ls
        = applyLinks (symlink st l.1 l.2) ls from rfl]
    rw [ih (symlink st l.1 l.2) (fun x hx => h x (List.mem_cons_of_mem _ hx))]
    exact storeLookup_symlink_ne st l.1 l.2 q (h l (List.mem_cons_self _ _))

lemma symlink_skip (st : Store) (src dst : String) (h : storeHas st dst = true) :
    symlink st src dst = st := by
  unfold symlink
  rw [if_pos h]

lemma strAppend_cancel {a b c : String} (h : a ++ b = a ++ c) : b = c := by
  have hd := congrArg String.data h
  rw [String.data_append, String.data_append] at hd
  exact String.ext (List.append_cancel_left hd)

lemma strAppend_ne (a : String) {b c : String} (h : b ≠ c) : a ++ b ≠ a ++ c :=
  fun he => h (strAppend_cancel he)

lemma pathUnder_append (a b c : String) : pathUnder (a ++ b) (a ++ c) = pathUnder b c := by
  unfold pathUnder
  rw [String.data_append, String.data_append]
  induction a.data with
  | nil => rfl
  | cons x xs ih => simpa [List.isPrefixOf] using ih

lemma pathUnder_prefix {a b : String} (h : pathUnder a b = true) : a.data <+: b.data :=
  List.isPrefixOf_iff_prefix.mp h

lemma pathUnder_ne_base {b q : String} (h : pathUnder (b ++ "/") q = true) : q ≠ b := by
  intro he
  subst he
  have hp := pathUnder_prefix h
  have hl := hp.length_le
  rw [String.data_append, List.length_append] at hl
  have : ("/" : String).data.length = 1 := rfl
  omega

lemma rfcs_link_ne_index (nm : String) : ("/rfcs/" ++ nm) ≠ "/index.md" := by
  intro h
  have hd := congrArg String.data h
  rw [String.data_append] at hd
  have ht := congrArg (List.take 6) hd
  rw [show (6 : Nat) = ("/rfcs/" : String).data.length from rfl, List.take_left] at ht
  exact absurd ht (by decide)

/-- C1 counterexample: on a tree containing `README.md` and a sibling
directory `README/inner.md`, `collect` emits only the symlink for
`README.md` itself: it does not recurse into the `README` subdirectory (no
link and no row for `inner.md` appears anywhere in the output), refuting
the claim that the subdirectory is still checked for `README.md`. -/
theorem readme_subdir_not_recursed :
    collect readmeTree "rfcs" "book/src" 0
      = ([("../../../rfcs/README.md", "book/src/rfcs/README.md")], []) := by
  rw [collect_eval]
  decide

/-- C1 amended: when `collect` processes an entry named `README.md`, it
creates only the symbolic link and emits no listing row, and it does not
check for or recurse into a same-named `README` subdirectory even when one
exists (the entry list is universally quantified, so it may contain such a
directory); processing of the remaining entries is unaffected. -/
theorem readme_no_row_no_recursion (entries : List (String × FsNode)) (rest : List String)
    (path srcpath : String) (depth : Nat) :
    collectList entries ("README.md" :: rest) path srcpath depth
      = (linkPair path srcpath "README.md" :: (collectList entries rest path srcpath depth).1,
         (collectList entries rest path srcpath depth).2) := by
  simp only [collectList]
  rw [if_pos (by decide : ("README.md".dropRight 3) = "README")]

/-- C2: on the docstring's own recommended layout (`0001-foo.md` plus
`0001-foo/bar.md`), the link for the nested file is created at the
flattened destination `book/src/rfcs/bar.md`, not at the mirrored
destination `book/src/rfcs/0001-foo/bar.md`, even though the outline row
written for the same file references the nested path
`rfcs/0001-foo/bar.md`. -/
theorem nested_link_flattened :
    (collect fooTree "rfcs" "book/src" 0).1
      = [("../../../rfcs/0001-foo.md", "book/src/rfcs/0001-foo.md"),
         ("../../../rfcs/0001-foo/bar.md", "book/src/rfcs/bar.md")] ∧
    (collect fooTree "rfcs" "book/src" 0).2
      = ["- [0001-foo](rfcs/0001-foo.md)\n", "-     [bar](rfcs/0001-foo/bar.md)\n"] ∧
    ("book/src/rfcs/bar.md" : String) ≠ "book/src/rfcs/0001-foo/bar.md" := by
  refine ⟨?_, ?_, by decide⟩ <;> (rw [collect_eval]; decide)

/-- C3: in the `mnemos` layout the outline lines are exactly the claimed
`- [0001-foo](rfcs/0001-foo.md)` followed by
`-     [bar](rfcs/0001-foo/bar.md)`, but in the `book` layout the
hard-coded `entry.path[5:]` slice cuts five characters off `../rfcs/...`
and produces `rfcs/cs/...` links instead. -/
theorem book_layout_outline_divergence :
    resolvePaths "/repo/book" = Except.ok ("src", "../rfcs") ∧
    (collect fooTree "../rfcs" "src" 0).2
      = ["- [0001-foo](rfcs/cs/0001-foo.md)\n", "-     [bar](rfcs/cs/0001-foo/bar.md)\n"] ∧
    resolvePaths "/repo/mnemos" = Except.ok ("book/src", "rfcs") ∧
    (collect fooTree "rfcs" "book/src" 0).2
      = ["- [0001-foo](rfcs/0001-foo.md)\n", "-     [bar](rfcs/0001-foo/bar.md)\n"] := by
  refine ⟨rfl, ?_, rfl, ?_⟩ <;> (rw [collect_eval]; decide)

/-- C4: in the `book` layout (cwd `/repo/book`), the link written at
`src/rfcs/X.md` (absolute directory `/repo/book/src/rfcs`) carries the
target `../../../../rfcs/X.md`, which resolves to `/rfcs/X.md` — one level
above the repository — instead of the original file `/repo/rfcs/X.md`; in
the `mnemos` layout (cwd `/repo-mnemos`) the same construction resolves
correctly to the original file. -/
theorem book_layout_target_escapes :
    (collect (FsNode.dir [("X.md", FsNode.file)]) "../rfcs" "src" 0).1
      = [("../../../../rfcs/X.md", "src/rfcs/X.md")] ∧
    resolveRel ["repo", "book", "src", "rfcs"] (splitSlash "../../../../rfcs/X.md")
      = ["rfcs", "X.md"] ∧
    (["rfcs", "X.md"] : List String) ≠ ["repo", "rfcs", "X.md"] ∧
    (collect (FsNode.dir [("X.md", FsNode.file)]) "rfcs" "book/src" 0).1
      = [("../../../rfcs/X.md", "book/src/rfcs/X.md")] ∧
    resolveRel ["repo-mnemos", "book", "src", "rfcs"] (splitSlash "../../../rfcs/X.md")
      = ["repo-mnemos", "rfcs", "X.md"] := by
  refine ⟨?_, by decide, by decide, ?_, by decide⟩ <;> (rw [collect_eval]; decide)

/-- C5: within one directory level, the names `collect` iterates over are
strictly ascending in code-point lexicographic order (given the real-
filesystem invariant that sibling names are distinct); the rows whose
indentation depth equals the level's depth are exactly the sorted
non-`README` names rendered in that order; and every row the call emits is
indented at least as deep as the level itself (rows of nested levels are
strictly deeper). -/
theorem rows_sorted_and_depth (entries : List (String × FsNode)) (path srcpath : String)
    (depth : Nat) (hnd : (entries.map Prod.fst).Nodup) :
    List.Pairwise (fun a b => strLt a b = true) (sortNames (mdNames entries)) ∧
    (collect (FsNode.dir entries) path srcpath depth).2.filter (fun l => lineDepth l == depth)
      = ((sortNames (mdNames entries)).filter (fun nm => !(nm.dropRight 3 == "README"))).map
          (rowString path depth) ∧
    (∀ l ∈ (collect (FsNode.dir entries) path srcpath depth).2, depth ≤ lineDepth l) := by
  refine ⟨pairwise_lt_sortNames _ (nodup_mdNames hnd), ?_, ?_⟩
  · simp only [collect]
    exact collectList_lines_filter entries _ path srcpath depth
  · simp only [collect]
    exact fun l hl => (collectList_lines_depth entries _ path srcpath depth l hl).1

/-- C5 witness: the theorem applied to a concrete three-entry directory. -/
theorem rows_sorted_and_depth_witness :
    ((([("b.md", FsNode.file), ("a.md", FsNode.file), ("README.md", FsNode.file)]
        : List (String × FsNode)).map Prod.fst).Nodup) ∧
    (List.Pairwise (fun a b => strLt a b = true)
      (sortNames (mdNames [("b.md", FsNode.file), ("a.md", FsNode.file),
        ("README.md", FsNode.file)])) ∧
    (collect (FsNode.dir [("b.md", FsNode.file), ("a.md", FsNode.file),
        ("README.md", FsNode.file)]) "rfcs" "book/src" 0).2.filter
        (fun l => lineDepth l == 0)
      = ((sortNames (mdNames [("b.md", FsNode.file), ("a.md", FsNode.file),
          ("README.md", FsNode.file)])).filter
          (fun nm => !(nm.dropRight 3 == "README"))).map (rowString "rfcs" 0) ∧
    (∀ l ∈ (collect (FsNode.dir [("b.md", FsNode.file), ("a.md", FsNode.file),
        ("README.md", FsNode.file)]) "rfcs" "book/src" 0).2, 0 ≤ lineDepth l)) :=
  ⟨by decide, rows_sorted_and_depth _ "rfcs" "book/src" 0 (by decide)⟩

/-- C6: when the working directory ends with neither `book` nor `mnemos`,
`main` raises the usage error and produces no run result: no reset, no
summary write and no link creation happens (the error return carries no
output store). -/
theorem usage_error_no_effects (cwd : String) (tree : FsNode) (st : Store)
    (h1 : strEndsWith cwd "book" = false) (h2 : strEndsWith cwd "mnemos" = false) :
    runMain cwd tree st = Except.error usageMsg := by
  unfold runMain resolvePaths
  rw [h1, h2]
  rfl

/-- C6 witness: a concrete unrecognized working directory. -/
theorem usage_error_no_effects_witness :
    strEndsWith "/home/user/project" "book" = false ∧
    strEndsWith "/home/user/project" "mnemos" = false ∧
    runMain "/home/user/project" (FsNode.dir []) [] = Except.error usageMsg :=
  ⟨by decide, by decide,
    usage_error_no_effects "/home/user/project" (FsNode.dir []) [] (by decide) (by decide)⟩

/-- C8: after the output-reset phase, the `rfcs` subdirectory of the source
directory maps to a fresh empty directory object, and — when it existed
before the run — every path below it has been deleted, so no entry from a
previous run survives into the walk. -/
theorem reset_phase_clears (st : Store) (b : String) :
    storeLookup (resetPhase st b) b = some FsObj.dirObj ∧
    (storeHas st b = true → ∀ q, pathUnder (b ++ "/") q = true →
      storeLookup (resetPhase st b) q = none) := by
  constructor
  · exact storeLookup_mkdir_self _ b
  · intro hb q hq
    unfold resetPhase
    rw [if_pos hb, storeLookup_mkdir_ne _ _ _ (Ne.symm (pathUnder_ne_base hq))]
    exact storeLookup_rmtree_removed st b q (Or.inr hq)

/-- C8 witness: a store holding a stale link below `book/src/rfcs` from a
previous run; after the reset the directory exists and the stale entry is
gone. -/
theorem reset_phase_clears_witness :
    storeLookup (resetPhase [("book/src/rfcs", FsObj.dirObj),
        ("book/src/rfcs/old.md", FsObj.linkObj "x")] "book/src/rfcs") "book/src/rfcs"
      = some FsObj.dirObj ∧
    storeLookup (resetPhase [("book/src/rfcs", FsObj.dirObj),
        ("book/src/rfcs/old.md", FsObj.linkObj "x")] "book/src/rfcs") "book/src/rfcs/old.md"
      = none :=
  ⟨(reset_phase_clears _ "book/src/rfcs").1,
    (reset_phase_clears [("book/src/rfcs", FsObj.dirObj),
        ("book/src/rfcs/old.md", FsObj.linkObj "x")] "book/src/rfcs").2
      (by decide) "book/src/rfcs/old.md" (by decide)⟩

/-- C9: `collect` is a total function of the finite tree (it is defined by
recursion that descends only into strictly smaller subdirectory entry
lists), and the nesting depth of every row it emits is bounded by the
starting depth plus the tree's real directory nesting depth. -/
theorem collect_depth_bounded (node : FsNode) (path srcpath : String) (depth : Nat) :
    ∀ l ∈ (collect node path srcpath depth).2,
      depth ≤ lineDepth l ∧ lineDepth l ≤ depth + node.height := by
  cases node with
  | file => simp [collect]
  | dir es =>
    intro l hl
    simp only [collect] at hl
    obtain ⟨h1, h2⟩ := collectList_lines_depth es _ path srcpath depth l hl
    simp only [FsNode.height]
    exact ⟨h1, by omega⟩

/-- C9 witness: the bound evaluated on a concrete tree and row. -/
theorem collect_depth_bounded_witness :
    ("-     [bar](rfcs/0001-foo/bar.md)\n" ∈ (collect fooTree "rfcs" "book/src" 0).2) ∧
    (0 ≤ lineDepth "-     [bar](rfcs/0001-foo/bar.md)\n" ∧
      lineDepth "-     [bar](rfcs/0001-foo/bar.md)\n" ≤ 0 + fooTree.height) :=
  ⟨by rw [collect_eval]; decide,
    collect_depth_bounded fooTree "rfcs" "book/src" 0 _ (by rw [collect_eval]; decide)⟩

/-- C10: `collect` selects entries purely by the textual test
`name.endswith('.md')` and never inspects the entry's type: any entry whose
name ends in `.md` — the node is universally quantified, so it may be a
directory — receives a symbolic link, and (unless its stem is `README`) a
listing row. -/
theorem md_selection_ignores_type (entries : List (String × FsNode)) (path srcpath : String)
    (depth : Nat) (nm : String) (node : FsNode)
    (hmem : (nm, node) ∈ entries) (hmd : strEndsWith nm ".md" = true) :
    linkPair path srcpath nm ∈ (collect (FsNode.dir entries) path srcpath depth).1 ∧
    (nm.dropRight 3 ≠ "README" →
      rowString path depth nm ∈ (collect (FsNode.dir entries) path srcpath depth).2) := by
  have hin : nm ∈ sortNames (mdNames entries) := by
    rw [mem_sortNames]
    unfold mdNames
    rw [List.mem_filter]
    exact ⟨List.mem_map.mpr ⟨(nm, node), hmem, rfl⟩, hmd⟩
  simp only [collect]
  exact ⟨link_mem_collectList _ _ _ _ _ nm hin,
    fun hr => row_mem_collectList _ _ _ _ _ nm hin hr⟩

/-- C10 witness: a directory named `X.md` gets both a symlink and a row. -/
theorem md_selection_ignores_type_witness :
    (("X.md", FsNode.dir [("inner.md", FsNode.file)]) ∈ dirMdEntries) ∧
    strEndsWith "X.md" ".md" = true ∧
    linkPair "rfcs" "book/src" "X.md"
      ∈ (collect (FsNode.dir dirMdEntries) "rfcs" "book/src" 0).1 ∧
    rowString "rfcs" 0 "X.md" ∈ (collect (FsNode.dir dirMdEntries) "rfcs" "book/src" 0).2 :=
  ⟨by simp [dirMdEntries], by decide,
    (md_selection_ignores_type dirMdEntries "rfcs" "book/src" 0 "X.md"
      (FsNode.dir [("inner.md", FsNode.file)]) (by simp [dirMdEntries]) (by decide)).1,
    (md_selection_ignores_type dirMdEntries "rfcs" "book/src" 0 "X.md"
      (FsNode.dir [("inner.md", FsNode.file)]) (by simp [dirMdEntries]) (by decide)).2 (by decide)⟩

lemma collect_links_shape (tree : FsNode) (path srcpath : String) (depth : Nat) :
    ∀ l ∈ (collect tree path srcpath depth).1, ∃ nm, l.2 = srcpath ++ "/rfcs/" ++ nm := by
  cases tree with
  | file => simp [collect]
  | dir es =>
    simp only [collect]
    exact collectList_links_shape es _ path srcpath depth

lemma storeLookup_resetPhase_other (st : Store) (b q : String) (h1 : b ≠ q)
    (h2 : pathUnder (b ++ "/") q = false) :
    storeLookup (resetPhase st b) q = storeLookup st q := by
  unfold resetPhase
  rw [storeLookup_mkdir_ne _ _ _ h1]
  split
  · exact storeLookup_rmtree_other st b q (Ne.symm h1) h2
  · rfl

lemma runMain_ok_of_index (cwd : String) (tree : FsNode) (st : Store) (sp rp ix : String)
    (hres : resolvePaths cwd = Except.ok (sp, rp))
    (hix : storeLookup (resetPhase st (sp ++ "/rfcs")) (sp ++ "/index.md")
      = some (FsObj.fileObj ix)) :
    runMain cwd tree st = Except.ok
      { store := applyLinks (writeFile (resetPhase st (sp ++ "/rfcs")) (sp ++ "/SUMMARY.md")
          (ix ++ "\n" ++ rfcsHeader ++ String.join (collect tree rp sp 0).2))
          (collect tree rp sp 0).1,
        stdout := rfcsHeader ++ String.join (collect tree rp sp 0).2 ++ "\n",
        summary := ix ++ "\n" ++ rfcsHeader ++ String.join (collect tree rp sp 0).2 } := by
  unfold runMain
  simp only [hres, hix]

lemma runMain_ok_inv (cwd : String) (tree : FsNode) (st : Store) (r1 : RunOut)
    (h : runMain cwd tree st = Except.ok r1) :
    ∃ sp rp ix, resolvePaths cwd = Except.ok (sp, rp) ∧
      storeLookup (resetPhase st (sp ++ "/rfcs")) (sp ++ "/index.md")
        = some (FsObj.fileObj ix) ∧
      r1 = { store := applyLinks (writeFile (resetPhase st (sp ++ "/rfcs"))
              (sp ++ "/SUMMARY.md")
              (ix ++ "\n" ++ rfcsHeader ++ String.join (collect tree rp sp 0).2))
              (collect tree rp sp 0).1,
             stdout := rfcsHeader ++ String.join (collect tree rp sp 0).2 ++ "\n",
             summary := ix ++ "\n" ++ rfcsHeader ++ String.join (collect tree rp sp 0).2 } := by
  unfold runMain at h
  rcases hres : resolvePaths cwd with e | ⟨sp, rp⟩
  · rw [hres] at h
    exact Except.noConfusion h
  · simp only [hres] at h
    rcases hix : storeLookup (resetPhase st (sp ++ "/rfcs")) (sp ++ "/index.md")
        with _ | obj
    · simp only [hix] at h
      exact Except.noConfusion h
    · cases obj with
      | dirObj =>
        simp only [hix] at h
        exact Except.noConfusion h
      | linkObj t =>
        simp only [hix] at h
        exact Except.noConfusion h
      | fileObj ix =>
        simp only [hix] at h
        exact ⟨sp, rp, ix, rfl, hix, (Except.ok.inj h).symm⟩

/-- C7: a second run of `main` on the unchanged RFC tree succeeds (it does
not fail on the links created by the first run) and writes byte-identical
summary contents, and `symlink` skips creation — without overwriting and
without erroring — whenever something already exists at the destination
path. -/
theorem rerun_byte_identical (cwd : String) (tree : FsNode) (st : Store) (r1 : RunOut)
    (h1 : runMain cwd tree st = Except.ok r1) :
    (∃ r2, runMain cwd tree r1.store = Except.ok r2 ∧ r2.summary = r1.summary) ∧
    (∀ s : Store, ∀ src dst : String, storeHas s dst = true → symlink s src dst = s) := by
  refine ⟨?_, fun s src dst h => symlink_skip s src dst h⟩
  obtain ⟨sp, rp, ix, hres, hix, hr1⟩ := runMain_ok_inv cwd tree st r1 h1
  subst hr1
  have hne_sk_ik : sp ++ "/SUMMARY.md" ≠ sp ++ "/index.md" :=
    strAppend_ne sp (by decide)
  have hne_bk_ik : sp ++ "/rfcs" ≠ sp ++ "/index.md" :=
    strAppend_ne sp (by decide)
  have hunder_ik : pathUnder (sp ++ "/rfcs" ++ "/") (sp ++ "/index.md") = false := by
    rw [String.append_assoc, show ("/rfcs" ++ "/" : String) = "/rfcs/" by decide,
      pathUnder_append]
    decide
  have hlinkne : ∀ l ∈ (collect tree rp sp 0).1, l.2 ≠ sp ++ "/index.md" := by
    intro l hl
    obtain ⟨nm, hnm⟩ := collect_links_shape tree rp sp 0 l hl
    rw [hnm, String.append_assoc]
    exact strAppend_ne sp (rfcs_link_ne_index nm)
  have e1 : storeLookup (applyLinks (writeFile (resetPhase st (sp ++ "/rfcs"))
        (sp ++ "/SUMMARY.md")
        (ix ++ "\n" ++ rfcsHeader ++ String.join (collect tree rp sp 0).2))
        (collect tree rp sp 0).1) (sp ++ "/index.md")
      = some (FsObj.fileObj ix) := by
    rw [storeLookup_applyLinks_ne _ _ _ hlinkne,
      storeLookup_writeFile_ne _ _ _ _ hne_sk_ik]
    exact hix
  have e2 : storeLookup (resetPhase (applyLinks (writeFile (resetPhase st (sp ++ "/rfcs"))
        (sp ++ "/SUMMARY.md")
        (ix ++ "\n" ++ rfcsHeader ++ String.join (collect tree rp sp 0).2))
        (collect tree rp sp 0).1) (sp ++ "/rfcs")) (sp ++ "/index.md")
      = some (FsObj.fileObj ix) := by
    rw [storeLookup_resetPhase_other _ _ _ hne_bk_ik hunder_ik]
    exact e1
  exact ⟨_, runMain_ok_of_index cwd tree _ sp rp ix hres e2, rfl⟩

/-- C7 witness: the theorem applied to a concrete first run in the `mnemos`
layout. -/
theorem rerun_byte_identical_witness :
    runMain "mnemos" fooTree rerunStore = Except.ok rerunOut ∧
    ((∃ r2, runMain "mnemos" fooTree rerunOut.store = Except.ok r2
        ∧ r2.summary = rerunOut.summary) ∧
     (∀ s : Store, ∀ src dst : String, storeHas s dst = true → symlink s src dst = s)) :=
  ⟨by simp only [runMain, collect_eval]; rfl,
   rerun_byte_identical "mnemos" fooTree rerunStore rerunOut
     (by simp only [runMain, collect_eval]; rfl)⟩
